import Mathlib

/-!
# Verification of `toyfst-reader`

Shallow embedding of the two source files of the repository:

* `src/main.rs` — the CLI driver: the hierarchy resolver `collect_signals`
  (scope-path tracking, name filtering, handle dedup) and the value-change
  replay callback inside `main` that logs one line per matching event.
* `src/pprof.rs` — the `StringTable` interning structure (`new`, `id`,
  `to_string_table`).

Modelling conventions:

* Rust `Vec<T>` becomes `List T`; `Vec::push` appends at the end
  (`l ++ [x]`) and `Vec::pop` removes the last element (`List.dropLast`,
  a no-op on the empty vector, exactly as in Rust).
* `FstSignalHandle` is consumed only through `get_index()` (a `usize`),
  so a handle is modelled as that index, a `Nat`.
* `HashSet<usize>` (`dedup_pool`) is modelled as a `List Nat` used only
  through membership and insertion, i.e. as a set.
* `HashMap<String, i64>` (`StringTable.data`) is modelled as an
  association list `List (String × Int)` in insertion order.  The map is
  consumed through key lookup (`entry`), insertion of a fresh key, and a
  full iteration that is immediately sorted by id (`to_string_table`);
  since the ids of a table are pairwise distinct, the sorted result does
  not depend on the iteration order, so the insertion-ordered list is a
  faithful model.
* `f64` rendering of `FstSignalValue::Real` is abstracted by carrying the
  already-rendered decimal text of the number; the code only ever
  concatenates `"real: "` in front of it.
* `main`'s observable effects are modelled explicitly: the run result
  records the emitted log lines and the list of files written.  The
  source's `main` performs no file write at all (it only opens the input
  file and logs), so the written-files component produced by the model is
  the empty list; the exit status is `Ok(())` on the success path.
-/

/-- The hierarchy entry kinds of `fst_native::FstHierarchyEntry` that
`collect_signals` matches on.  `Scope`, `UpScope` and `Var` carry the
fields the code reads; the remaining variants (`AttributeEnd`,
`PathName`, `SourceStem`, `Comment`, `EnumTable`, `EnumTableRef`) all
fall into the `_ => ()` arm and are kept as distinct constructors so the
catch-all is visible in the model. -/
inductive FstHierarchyEntry where
  | Scope (name : String)
  | UpScope
  | Var (name : String) (handle : Nat)
  | AttributeEnd
  | PathName (name : String) (id : Nat)
  | SourceStem
  | Comment (s : String)
  | EnumTable
  | EnumTableRef
deriving DecidableEq, Repr

/-- `FstSignalValue`: either a textual value or a real number.  The
`f64` payload of `Real` is abstracted to its rendered decimal text. -/
inductive FstSignalValue where
  | Str (s : String)
  | Real (rendered : String)
deriving DecidableEq, Repr

/-- The `match value { String(s) => s, Real(r) => format!("real: {}", r) }`
conversion in `main`'s replay callback. -/
def renderValue : FstSignalValue → String
  | FstSignalValue.Str s => s
  | FstSignalValue.Real r => "real: " ++ r

/-- `struct SignalMetadata` of `src/main.rs`: three parallel vectors. -/
structure SignalMetadata where
  module_paths : List (List String)
  names : List String
  handle : List Nat
deriving DecidableEq, Repr

/-- `SignalMetadata::default()`. -/
def SignalMetadata.default : SignalMetadata :=
  ⟨[], [], []⟩

/-- `SignalMetadata::push`: pushes one field onto each of the three
vectors. -/
def SignalMetadata.push (m : SignalMetadata) (module_path : List String)
    (name : String) (handle_id : Nat) : SignalMetadata :=
  ⟨m.module_paths ++ [module_path], m.names ++ [name], m.handle ++ [handle_id]⟩

/-- The local mutable state of `collect_signals`: the metadata being
built, the live scope path, and the handle dedup pool. -/
structure ResolverState where
  metadata : SignalMetadata
  module_path : List String
  dedup_pool : List Nat
deriving DecidableEq, Repr

/-- Initial state of `collect_signals`: default metadata, empty path,
empty dedup pool. -/
def ResolverState.init : ResolverState :=
  ⟨SignalMetadata.default, [], []⟩

/-- One invocation of the closure passed to `read_hierarchy` in
`collect_signals`:
* `Var`: if the name is in `expected` and the handle is not in the dedup
  pool, push `(module_path.clone(), name, handle)` and record the handle;
* `Scope`: push the scope name onto the live path;
* `UpScope`: pop the live path (`Vec::pop`, a no-op when empty);
* every other entry kind: no-op. -/
def resolverStep (expected : List String) (st : ResolverState) :
    FstHierarchyEntry → ResolverState
  | FstHierarchyEntry.Var name handle =>
      if name ∈ expected ∧ handle ∉ st.dedup_pool then
        ⟨st.metadata.push st.module_path name handle, st.module_path,
          handle :: st.dedup_pool⟩
      else st
  | FstHierarchyEntry.Scope name =>
      ⟨st.metadata, st.module_path ++ [name], st.dedup_pool⟩
  | FstHierarchyEntry.UpScope =>
      ⟨st.metadata, st.module_path.dropLast, st.dedup_pool⟩
  | _ => st

/-- The state of `collect_signals` after the hierarchy callback has run
over all entries, in file order. -/
def resolverRun (expected : List String) (entries : List FstHierarchyEntry) :
    ResolverState :=
  entries.foldl (resolverStep expected) ResolverState.init

/-- `collect_signals` of `src/main.rs`, over an already-decoded list of
hierarchy entries.  Decode errors of the external reader (the `Err`
branch of `read_result`) are outside this model: on a decoded entry list
the callback itself never fails, so the `Ok(metadata)` value is
returned. -/
def collect_signals (expected : List String)
    (entries : List FstHierarchyEntry) : SignalMetadata :=
  (resolverRun expected entries).metadata

/-- One record of a reference resolver that keeps the three fields of a
declaration together, used to state that the parallel vectors of
`SignalMetadata` stay in lockstep. -/
structure SignalRecord where
  module_path : List String
  name : String
  handle : Nat
deriving DecidableEq, Repr

/-- Reference resolver state: a single list of records instead of three
parallel vectors, with the same live path and dedup pool. -/
structure RecResolverState where
  records : List SignalRecord
  module_path : List String
  dedup_pool : List Nat
deriving DecidableEq, Repr

/-- Reference resolver step: identical control flow to `resolverStep`,
but the three pushed fields go into one record. -/
def recResolverStep (expected : List String) (st : RecResolverState) :
    FstHierarchyEntry → RecResolverState
  | FstHierarchyEntry.Var name handle =>
      if name ∈ expected ∧ handle ∉ st.dedup_pool then
        ⟨st.records ++ [⟨st.module_path, name, handle⟩], st.module_path,
          handle :: st.dedup_pool⟩
      else st
  | FstHierarchyEntry.Scope name =>
      ⟨st.records, st.module_path ++ [name], st.dedup_pool⟩
  | FstHierarchyEntry.UpScope =>
      ⟨st.records, st.module_path.dropLast, st.dedup_pool⟩
  | _ => st

/-- The record list produced by the reference resolver. -/
def collectRecords (expected : List String)
    (entries : List FstHierarchyEntry) : List SignalRecord :=
  (entries.foldl (recResolverStep expected) ⟨[], [], []⟩).records

/-- One emitted log line of `main`'s replay callback:
`info!("time: {} signal: {} value: {}", t, metadata.names[i], v)`.
The three interpolated data are the timestamp, the signal name and the
rendered value text. -/
structure LogRecord where
  time : Nat
  signal : String
  value : String
deriving DecidableEq, Repr

/-- The string data interpolated into a log line besides the timestamp:
the signal name and the rendered value text.  These are the only label
texts the emitted record carries. -/
def LogRecord.labelTexts (r : LogRecord) : List String :=
  [r.signal, r.value]

/-- The closure passed to `read_signals` in `main`: render the value,
scan `metadata.handle` with `enumerate().find(...)` for the first index
whose handle index equals the event's, and if found emit one log record
with `metadata.names[i]`.  The `names[i]` access is modelled with
`List.getD`; the index returned by the scan is always in range because
the three metadata vectors have equal length. -/
def processEvent (metadata : SignalMetadata) (t : Nat) (handle : Nat)
    (value : FstSignalValue) : Option LogRecord :=
  let v := renderValue value
  match metadata.handle.findIdx? (fun item => item = handle) with
  | some i => some ⟨t, metadata.names.getD i "", v⟩
  | none => none

/-- A value-change event of the filtered replay: timestamp, handle,
value. -/
structure FstEvent where
  t : Nat
  handle : Nat
  value : FstSignalValue
deriving DecidableEq, Repr

/-- The log lines emitted by `main`'s replay loop over a list of events,
in replay order: one per event for which the handle scan succeeds, none
otherwise. -/
def runLogs (metadata : SignalMetadata) (events : List FstEvent) :
    List LogRecord :=
  events.filterMap (fun e => processEvent metadata e.t e.handle e.value)

/-- `struct CliArgs` of `src/main.rs`: the complete argument surface of
the binary — an input path, an (unused) properties path, and the
comma-separated signal list.  There is no output/destination argument. -/
structure CliArgs where
  fst : String
  properties : Option String
  signals : String
deriving DecidableEq, Repr

/-- An already-decoded FST input: the hierarchy entry stream and the
value-change events of the filtered replay, in time order. -/
structure FstInput where
  hierarchy : List FstHierarchyEntry
  events : List FstEvent
deriving DecidableEq, Repr

/-- The observable outcome of one run of `main`: whether it returned
`Ok(())` (process exit status zero), the log lines it emitted, and the
paths of the files it wrote. -/
structure RunResult where
  exitOk : Bool
  logs : List LogRecord
  writtenFiles : List String
deriving DecidableEq, Repr

/-- `main` of `src/main.rs` on an already-opened, decodable input:
split `args.signals` on `','`, run `collect_signals`, replay the
filtered value changes logging one line per matching event, and return
`Ok(())`.  No file is written anywhere on this path — the function body
contains no write call — so the written-files list is empty.  (Failures
of the external decoder — unopenable file, malformed stream — abort
before this point and are outside the model.) -/
def mainRun (args : CliArgs) (input : FstInput) : RunResult :=
  let expected := args.signals.splitOn ","
  let metadata := collect_signals expected input.hierarchy
  ⟨true, runLogs metadata input.events, []⟩

/-- `struct StringTable` of `src/pprof.rs`: the string-to-id map (an
association list in insertion order) and the last allocated id. -/
structure StringTable where
  data : List (String × Int)
  next : Int
deriving DecidableEq, Repr

/-- `StringTable::new()`: the map pre-seeded with the empty string at
id 0, `next = 0`. -/
def StringTable.new : StringTable :=
  ⟨[("", 0)], 0⟩

/-- `StringTable::default()` (the derived `Default`): empty map,
`next = 0`.  The empty string is *not* pre-registered. -/
def StringTable.deflt : StringTable :=
  ⟨[], 0⟩

/-- Key lookup in the association list, the read side of
`HashMap::entry`. -/
def StringTable.lookup (t : StringTable) (q : String) : Option Int :=
  (t.data.find? (fun p => p.1 = q)).map Prod.snd

/-- `StringTable::id`: `self.data.entry(q).or_insert_with(|| { self.next += 1; self.next })`.
If `q` is present, return its id and leave the table unchanged;
otherwise increment `next`, insert `(q, next)` and return the new id. -/
def StringTable.id (t : StringTable) (q : String) : Int × StringTable :=
  match t.lookup q with
  | some i => (i, t)
  | none => (t.next + 1, ⟨t.data ++ [(q, t.next + 1)], t.next + 1⟩)

/-- `StringTable::to_string_table`: iterate the map, sort the pairs by
id (`sort_by` on the id component), drop the ids.  The ids of any table
reachable from `new`/`default` are pairwise distinct, so the sort result
is independent of the map's iteration order. -/
def StringTable.to_string_table (t : StringTable) : List String :=
  (t.data.insertionSort (fun a b => a.2 ≤ b.2)).map Prod.fst

/-- The table reached from `t` by the calls `id(q)` for `q` in `qs`, in
order — the reachable states of a `StringTable`. -/
def StringTable.buildFrom (t : StringTable) (qs : List String) : StringTable :=
  qs.foldl (fun t q => (t.id q).2) t

/-- Number of scope-enter entries in a hierarchy entry list. -/
def scopeCount (entries : List FstHierarchyEntry) : Nat :=
  entries.countP (fun e =>
    match e with
    | FstHierarchyEntry.Scope _ => true
    | _ => false)

/-- Number of scope-exit entries in a hierarchy entry list. -/
def upCount (entries : List FstHierarchyEntry) : Nat :=
  entries.countP (fun e =>
    match e with
    | FstHierarchyEntry.UpScope => true
    | _ => false)

/-- Legally-nested input: scope-enter and scope-exit entries are
strictly balanced — no prefix closes more scopes than it has opened, and
the full list closes exactly as many as it opens. -/
def BalancedEntries (entries : List FstHierarchyEntry) : Prop :=
  (∀ p ∈ entries.inits, upCount p ≤ scopeCount p) ∧
    upCount entries = scopeCount entries

instance (entries : List FstHierarchyEntry) : Decidable (BalancedEntries entries) :=
  inferInstanceAs (Decidable (_ ∧ _))

/-- The resolver step as the spec describes it: identical to
`resolverStep` except that a scope-exit entry with the live path already
empty "fails (programmer/data error) ... signals a malformed hierarchy"
instead of being a silent no-op.  This definition follows the spec's
words; it is the comparison point for the claim that the code errors
there, which `resolverStep` (translated from the source) does not. -/
def resolverStepSpec (expected : List String) (st : ResolverState) :
    FstHierarchyEntry → Except String ResolverState
  | FstHierarchyEntry.Var name handle =>
      if name ∈ expected ∧ handle ∉ st.dedup_pool then
        Except.ok ⟨st.metadata.push st.module_path name handle,
          st.module_path, handle :: st.dedup_pool⟩
      else Except.ok st
  | FstHierarchyEntry.Scope name =>
      Except.ok ⟨st.metadata, st.module_path ++ [name], st.dedup_pool⟩
  | FstHierarchyEntry.UpScope =>
      if st.module_path = [] then Except.error "malformed hierarchy"
      else Except.ok ⟨st.metadata, st.module_path.dropLast, st.dedup_pool⟩
  | _ => Except.ok st

/-- The spec-worded resolver over a whole entry list: propagates the
malformed-hierarchy error, otherwise returns the metadata. -/
def collect_signals_spec (expected : List String)
    (entries : List FstHierarchyEntry) : Except String SignalMetadata :=
  (entries.foldlM (resolverStepSpec expected) ResolverState.init).map
    (fun st => st.metadata)

/-- The declared variable name of a hierarchy entry, when the entry is
a variable declaration. -/
def varNameOf : FstHierarchyEntry → Option String
  | FstHierarchyEntry.Var name _ => some name
  | _ => none

/-- The ids `s, s+1, …, s+n-1`. -/
def intRange (s : Int) (n : Nat) : List Int :=
  (List.range n).map (fun (k : Nat) => s + (k : Int))

/-- Shape invariant of every `StringTable` reachable from `new` (with
`s = 0`) or from the derived `Default` (with `s = 1`): in insertion
order the ids are the consecutive integers `s, s+1, …`, the keys are
pairwise distinct, and `next` is the last allocated id (`s - 1` when
nothing beyond the seed has been allocated). -/
def STChain (s : Int) (t : StringTable) : Prop :=
  t.data.map Prod.snd = intRange s t.data.length ∧
    (t.data.map Prod.fst).Nodup ∧
    t.next = s + t.data.length - 1

/-! ## String table lemmas -/

theorem intRange_succ (s : Int) (n : Nat) :
    intRange s (n + 1) = intRange s n ++ [s + n] := by
  simp [intRange, List.range_succ]

theorem stChain_new : STChain 0 StringTable.new :=
  ⟨by decide, by decide, by decide⟩

theorem stChain_deflt : STChain 1 StringTable.deflt :=
  ⟨by decide, by decide, by decide⟩

theorem lookup_none_not_mem {t : StringTable} {q : String}
    (h : t.lookup q = none) : ∀ p ∈ t.data, p.1 ≠ q := by
  intro p hp
  unfold StringTable.lookup at h
  rw [Option.map_eq_none'] at h
  have := List.find?_eq_none.mp h p hp
  simpa using this

theorem id_data_cases (t : StringTable) (q : String) :
    (t.id q).2.data = t.data ∨
      (t.id q).2.data = t.data ++ [(q, t.next + 1)] := by
  unfold StringTable.id
  cases t.lookup q <;> simp

theorem stChain_id (s : Int) (t : StringTable) (q : String)
    (h : STChain s t) : STChain s (t.id q).2 := by
  obtain ⟨h1, h2, h3⟩ := h
  unfold StringTable.id
  cases hl : t.lookup q with
  | some i => exact ⟨h1, h2, h3⟩
  | none =>
    have hq : ∀ p ∈ t.data, p.1 ≠ q := lookup_none_not_mem hl
    have hnext : t.next + 1 = s + t.data.length := by omega
    refine ⟨?_, ?_, ?_⟩
    · show (t.data ++ [(q, t.next + 1)]).map Prod.snd
        = intRange s (t.data ++ [(q, t.next + 1)]).length
      rw [List.map_append, h1, List.length_append]
      simp only [List.map_cons, List.map_nil, List.length_cons,
        List.length_nil, List.length_singleton]
      rw [intRange_succ, hnext]
    · show ((t.data ++ [(q, t.next + 1)]).map Prod.fst).Nodup
      rw [List.map_append]
      rw [List.nodup_append]
      refine ⟨h2, by simp, ?_⟩
      intro a ha hb
      simp only [List.map_cons, List.map_nil, List.mem_singleton] at hb
      obtain ⟨p, hp, hpa⟩ := List.mem_map.mp ha
      exact hq p hp (by rw [hpa, hb])
    · show t.next + 1 = s + (t.data ++ [(q, t.next + 1)]).length - 1
      rw [List.length_append]
      simp only [List.length_singleton]
      push_cast
      omega

theorem buildFrom_nil (t : StringTable) : t.buildFrom [] = t := rfl

theorem buildFrom_cons (t : StringTable) (q : String) (qs : List String) :
    t.buildFrom (q :: qs) = (t.id q).2.buildFrom qs := rfl

theorem stChain_buildFrom (s : Int) (t : StringTable) (qs : List String)
    (h : STChain s t) : STChain s (t.buildFrom qs) := by
  induction qs generalizing t with
  | nil => exact h
  | cons q qs ih => exact ih _ (stChain_id s t q h)

theorem buildFrom_data_zero (t : StringTable) (qs : List String)
    (p : String × Int) (h : t.data[0]? = some p) :
    (t.buildFrom qs).data[0]? = some p := by
  induction qs generalizing t with
  | nil => exact h
  | cons q qs ih =>
    refine ih _ ?_
    rcases id_data_cases t q with hc | hc <;> rw [hc]
    · exact h
    · cases hd : t.data with
      | nil => rw [hd] at h; simp at h
      | cons a l => rw [hd] at h; simpa using h

theorem buildFrom_keys (t : StringTable) (qs : List String) :
    ∀ p ∈ (t.buildFrom qs).data,
      p.1 ∈ t.data.map Prod.fst ∨ p.1 ∈ qs := by
  induction qs generalizing t with
  | nil =>
    intro p hp
    exact Or.inl (List.mem_map_of_mem _ hp)
  | cons q qs ih =>
    intro p hp
    rcases ih _ p hp with hk | hk
    · rcases id_data_cases t q with hc | hc
      · rw [hc] at hk
        exact Or.inl hk
      · rw [hc, List.map_append] at hk
        rcases List.mem_append.mp hk with h1 | h1
        · exact Or.inl h1
        · simp only [List.map_cons, List.map_nil, List.mem_singleton] at h1
          exact Or.inr (by simp [h1])
    · exact Or.inr (List.mem_cons_of_mem _ hk)

theorem stChain_mem_pos (s : Int) (t : StringTable) (h : STChain s t)
    (p : String × Int) (hp : p ∈ t.data) :
    ∃ i : Nat, t.data[i]? = some p ∧ p.2 = s + i := by
  obtain ⟨i, hi, hget⟩ := List.getElem_of_mem hp
  refine ⟨i, ?_, ?_⟩
  · rw [List.getElem?_eq_getElem hi, hget]
  · have hmap : (t.data.map Prod.snd)[i]? = some p.2 := by
      rw [List.getElem?_map, List.getElem?_eq_getElem hi, hget]
      rfl
    rw [h.1] at hmap
    unfold intRange at hmap
    rw [List.getElem?_map, List.getElem?_range (by simpa using hi)] at hmap
    simp only [Option.map_some', Option.some.injEq] at hmap
    exact hmap.symm

theorem stChain_sorted (s : Int) (t : StringTable) (h : STChain s t) :
    t.data.Sorted (fun a b => a.2 ≤ b.2) := by
  have hpw : List.Pairwise (fun a b : Int => a ≤ b) (t.data.map Prod.snd) := by
    rw [h.1]
    unfold intRange
    rw [List.pairwise_map]
    refine (List.pairwise_lt_range _).imp ?_
    intro a b hab
    show s + (a : Int) ≤ s + (b : Int)
    omega
  exact List.pairwise_map.mp hpw

theorem stChain_to_string_table (s : Int) (t : StringTable)
    (h : STChain s t) : t.to_string_table = t.data.map Prod.fst := by
  unfold StringTable.to_string_table
  rw [List.Sorted.insertionSort_eq (stChain_sorted s t h)]

theorem id_twice (t : StringTable) (q : String) :
    (t.id q).2.id q = t.id q := by
  cases hl : t.lookup q with
  | some i => simp [StringTable.id, hl]
  | none =>
    have hfind : t.data.find? (fun p => p.1 = q) = none := by
      unfold StringTable.lookup at hl
      exact Option.map_eq_none'.mp hl
    have hl2 : StringTable.lookup ⟨t.data ++ [(q, t.next + 1)], t.next + 1⟩ q
        = some (t.next + 1) := by
      unfold StringTable.lookup
      rw [List.find?_append, hfind]
      simp
    simp [StringTable.id, hl, hl2]

/-! ## String table claims -/

/-- C3: on every `StringTable` reachable from `new()`, calling `id(s)`
twice returns the same value and the second call does not mutate the
table (stated as: re-running `id` on the table returned by `id` returns
the same id/table pair); the ids in first-insertion order are exactly
`0, 1, 2, …` — the empty string sits first with id 0 and every
subsequently interned (necessarily distinct, non-empty-slot) string
receives the next id starting at 1; keys are pairwise distinct; and any
entry with id 0 is the empty string. -/
theorem C3_stringtable_id_contract (qs : List String) :
    (∀ (t : StringTable) (s : String), (t.id s).2.id s = t.id s) ∧
    (StringTable.new.buildFrom qs).data.map Prod.snd
      = intRange 0 (StringTable.new.buildFrom qs).data.length ∧
    (StringTable.new.buildFrom qs).data[0]? = some ("", 0) ∧
    ((StringTable.new.buildFrom qs).data.map Prod.fst).Nodup ∧
    (∀ p ∈ (StringTable.new.buildFrom qs).data.drop 1, p.1 ≠ "") ∧
    (∀ p ∈ (StringTable.new.buildFrom qs).data, p.2 = 0 → p.1 = "") := by
  have hchain := stChain_buildFrom 0 StringTable.new qs stChain_new
  have hzero : (StringTable.new.buildFrom qs).data[0]? = some ("", 0) :=
    buildFrom_data_zero _ _ _ rfl
  refine ⟨fun t s => id_twice t s, hchain.1, hzero, hchain.2.1, ?_, ?_⟩
  · intro p hp he
    cases hd : (StringTable.new.buildFrom qs).data with
    | nil =>
      rw [hd] at hp
      simp at hp
    | cons a tl =>
      rw [hd] at hzero hp
      have ha : a = ("", 0) := by
        simpa using hzero
      have hnd := hchain.2.1
      rw [hd, ha] at hnd
      simp only [List.map_cons, List.nodup_cons] at hnd
      simp only [List.drop_succ_cons, List.drop_zero] at hp
      exact hnd.1 (by
        rw [← he]
        exact List.mem_map_of_mem _ hp)
  · intro p hp h0
    obtain ⟨i, hget, hid⟩ := stChain_mem_pos 0 _ hchain p hp
    have hi0 : i = 0 := by omega
    rw [hi0, hzero] at hget
    have hp0 : p = ("", 0) := by
      simpa using hget.symm
    rw [hp0]

/-- Witness for C3 at a concrete table: `id` is idempotent on `new`
after interning `"a"`, the table built from `["a", "b"]` has the empty
string at slot 0, and the entry carrying id 0 is the empty string. -/
theorem C3_stringtable_id_contract_witness :
    (StringTable.new.id "a").2.id "a" = StringTable.new.id "a" ∧
    (StringTable.new.buildFrom ["a", "b"]).data[0]? = some ("", 0) ∧
    ((("a" : String), (1 : Int)).1 ≠ "") ∧
    ((("" : String), (0 : Int)).1 = "") :=
  ⟨(C3_stringtable_id_contract ["a", "b"]).1 StringTable.new "a",
   (C3_stringtable_id_contract ["a", "b"]).2.2.1,
   (C3_stringtable_id_contract ["a", "b"]).2.2.2.2.1 ("a", 1) (by decide),
   (C3_stringtable_id_contract ["a", "b"]).2.2.2.2.2 ("", 0) (by decide)
     (by decide)⟩

/-- C7: for every `StringTable` reachable from `new()` by `id` calls,
`to_string_table` is the ids-to-strings projection in id order: it
equals the keys in first-insertion order (which is id order), has one
element per interned string, holds the empty string at index 0, and
places the string interned with id `k` at index `k`. -/
theorem C7_to_string_table_projection (qs : List String) :
    (StringTable.new.buildFrom qs).to_string_table
      = (StringTable.new.buildFrom qs).data.map Prod.fst ∧
    (StringTable.new.buildFrom qs).to_string_table.length
      = (StringTable.new.buildFrom qs).data.length ∧
    (StringTable.new.buildFrom qs).to_string_table[0]? = some "" ∧
    (∀ p ∈ (StringTable.new.buildFrom qs).data,
      (StringTable.new.buildFrom qs).to_string_table[p.2.toNat]?
        = some p.1) := by
  have hchain := stChain_buildFrom 0 StringTable.new qs stChain_new
  have hts := stChain_to_string_table 0 _ hchain
  have hzero : (StringTable.new.buildFrom qs).data[0]? = some ("", 0) :=
    buildFrom_data_zero _ _ _ rfl
  refine ⟨hts, ?_, ?_, ?_⟩
  · rw [hts, List.length_map]
  · rw [hts, List.getElem?_map, hzero]
    rfl
  · intro p hp
    obtain ⟨i, hget, hid⟩ := stChain_mem_pos 0 _ hchain p hp
    have htn : p.2.toNat = i := by omega
    rw [hts, htn, List.getElem?_map, hget]
    rfl

/-- Witness for C7 at a concrete table: in the table built from
`["a"]`, the entry `("a", 1)` is placed at index 1 of the projection. -/
theorem C7_to_string_table_projection_witness :
    (StringTable.new.buildFrom ["a"]).to_string_table[((1 : Int)).toNat]?
      = some "a" :=
  (C7_to_string_table_projection ["a"]).2.2.2 ("a", 1) (by decide)

/-- C10: a `StringTable` built by the derived `Default` starts with an
empty map, so the empty string is not pre-registered: the first `id`
call returns 1 whatever the string, no entry of any table reachable
from it carries id 0, `to_string_table` never contains the empty string
when the empty string is never interned (in particular it is not at
index 0), and on the fresh default table the projection is empty. -/
theorem C10_default_no_reservation (qs : List String) :
    StringTable.deflt.data = [] ∧
    (∀ s, (StringTable.deflt.id s).1 = 1) ∧
    (∀ p ∈ (StringTable.deflt.buildFrom qs).data, p.2 ≠ 0) ∧
    ("" ∉ qs → "" ∉ (StringTable.deflt.buildFrom qs).to_string_table) ∧
    StringTable.deflt.to_string_table = [] := by
  have hchain : STChain 1 (StringTable.deflt.buildFrom qs) :=
    stChain_buildFrom 1 _ qs stChain_deflt
  refine ⟨rfl, ?_, ?_, ?_, rfl⟩
  · intro s
    rfl
  · intro p hp
    obtain ⟨i, hget, hid⟩ := stChain_mem_pos 1 _ hchain p hp
    omega
  · intro hq hmem
    rw [stChain_to_string_table 1 _ hchain] at hmem
    obtain ⟨p, hp, hp1⟩ := List.mem_map.mp hmem
    rcases buildFrom_keys StringTable.deflt qs p hp with hk | hk
    · simp [StringTable.deflt] at hk
    · rw [hp1] at hk
      exact hq hk

/-- Witness for C10 at a concrete table: the first interned string on a
default table gets id 1, the entry `("x", 1)` built from `["x"]` does
not carry id 0, and the empty string is absent from that table's
projection. -/
theorem C10_default_no_reservation_witness :
    (StringTable.deflt.id "x").1 = 1 ∧
    ((("x" : String), (1 : Int)).2 ≠ 0) ∧
    "" ∉ (StringTable.deflt.buildFrom ["x"]).to_string_table :=
  ⟨(C10_default_no_reservation ["x"]).2.1 "x",
   (C10_default_no_reservation ["x"]).2.2.1 ("x", 1) (by decide),
   (C10_default_no_reservation ["x"]).2.2.2.1 (by decide)⟩

/-! ## Resolver lemmas -/

theorem resolverStep_inv (expected : List String) (st : ResolverState)
    (e : FstHierarchyEntry)
    (hpool : ∀ h, h ∈ st.dedup_pool ↔ h ∈ st.metadata.handle)
    (hnd : st.metadata.handle.Nodup)
    (hnames : ∀ n ∈ st.metadata.names, n ∈ expected) :
    (∀ h, h ∈ (resolverStep expected st e).dedup_pool
        ↔ h ∈ (resolverStep expected st e).metadata.handle) ∧
    (resolverStep expected st e).metadata.handle.Nodup ∧
    (∀ n ∈ (resolverStep expected st e).metadata.names, n ∈ expected) := by
  cases e with
  | Var name handle =>
    dsimp only [resolverStep]
    split
    · rename_i hcond
      obtain ⟨hn, hh⟩ := hcond
      refine ⟨?_, ?_, ?_⟩
      · intro h
        simp only [SignalMetadata.push, List.mem_cons, List.mem_append,
          List.mem_singleton]
        rw [hpool h]
        tauto
      · simp only [SignalMetadata.push]
        rw [List.nodup_append]
        refine ⟨hnd, by simp, ?_⟩
        intro a ha hb
        simp only [List.mem_singleton] at hb
        subst hb
        exact hh ((hpool a).mpr ha)
      · intro n hn2
        simp only [SignalMetadata.push, List.mem_append,
          List.mem_singleton] at hn2
        rcases hn2 with h1 | h1
        · exact hnames n h1
        · subst h1
          exact hn
    · exact ⟨hpool, hnd, hnames⟩
  | Scope name => exact ⟨hpool, hnd, hnames⟩
  | UpScope => exact ⟨hpool, hnd, hnames⟩
  | AttributeEnd => exact ⟨hpool, hnd, hnames⟩
  | PathName name pid => exact ⟨hpool, hnd, hnames⟩
  | SourceStem => exact ⟨hpool, hnd, hnames⟩
  | Comment s => exact ⟨hpool, hnd, hnames⟩
  | EnumTable => exact ⟨hpool, hnd, hnames⟩
  | EnumTableRef => exact ⟨hpool, hnd, hnames⟩

theorem resolverRun_inv (expected : List String)
    (entries : List FstHierarchyEntry) :
    ∀ st : ResolverState,
      (∀ h, h ∈ st.dedup_pool ↔ h ∈ st.metadata.handle) →
      st.metadata.handle.Nodup →
      (∀ n ∈ st.metadata.names, n ∈ expected) →
      (∀ h, h ∈ (entries.foldl (resolverStep expected) st).dedup_pool
          ↔ h ∈ (entries.foldl (resolverStep expected) st).metadata.handle) ∧
      (entries.foldl (resolverStep expected) st).metadata.handle.Nodup ∧
      (∀ n ∈ (entries.foldl (resolverStep expected) st).metadata.names,
        n ∈ expected) := by
  induction entries with
  | nil =>
    intro st h1 h2 h3
    exact ⟨h1, h2, h3⟩
  | cons e rest ih =>
    intro st h1 h2 h3
    obtain ⟨g1, g2, g3⟩ := resolverStep_inv expected st e h1 h2 h3
    exact ih _ g1 g2 g3

theorem resolverRun_handle_mem (expected : List String)
    (entries : List FstHierarchyEntry) :
    ∀ st : ResolverState,
      (∀ h, h ∈ st.dedup_pool ↔ h ∈ st.metadata.handle) →
      ∀ h, h ∈ (entries.foldl (resolverStep expected) st).metadata.handle ↔
        (h ∈ st.metadata.handle ∨
          ∃ n, FstHierarchyEntry.Var n h ∈ entries ∧ n ∈ expected) := by
  induction entries with
  | nil =>
    intro st h1 h
    simp
  | cons e rest ih =>
    intro st h1 h
    rw [List.foldl_cons]
    cases e with
    | Var name handle =>
      have h1' : ∀ h, h ∈ (resolverStep expected st
            (FstHierarchyEntry.Var name handle)).dedup_pool
          ↔ h ∈ (resolverStep expected st
            (FstHierarchyEntry.Var name handle)).metadata.handle := by
        dsimp only [resolverStep]
        split
        · rename_i hcond
          intro h
          simp only [SignalMetadata.push, List.mem_cons, List.mem_append,
            List.mem_singleton]
          rw [h1 h]
          tauto
        · exact h1
      rw [ih _ h1' h]
      dsimp only [resolverStep]
      split
      · rename_i hcond
        obtain ⟨hn, hh⟩ := hcond
        constructor
        · rintro (hmem | ⟨n, hn1, hn2⟩)
          · simp only [SignalMetadata.push, List.mem_append,
              List.mem_singleton] at hmem
            rcases hmem with hm | hm
            · exact Or.inl hm
            · subst hm
              exact Or.inr ⟨name, by simp, hn⟩
          · exact Or.inr ⟨n, List.mem_cons_of_mem _ hn1, hn2⟩
        · rintro (hmem | ⟨n, hn1, hn2⟩)
          · exact Or.inl (by simp [SignalMetadata.push, hmem])
          · rcases List.mem_cons.mp hn1 with he | he
            · cases he
              exact Or.inl (by simp [SignalMetadata.push])
            · exact Or.inr ⟨n, he, hn2⟩
      · rename_i hcond
        rw [not_and_or, not_not] at hcond
        constructor
        · rintro (hmem | ⟨n, hn1, hn2⟩)
          · exact Or.inl hmem
          · exact Or.inr ⟨n, List.mem_cons_of_mem _ hn1, hn2⟩
        · rintro (hmem | ⟨n, hn1, hn2⟩)
          · exact Or.inl hmem
          · rcases List.mem_cons.mp hn1 with he | he
            · cases he
              rcases hcond with hc | hc
              · exact absurd hn2 hc
              · exact Or.inl ((h1 _).mp hc)
            · exact Or.inr ⟨n, he, hn2⟩
    | Scope name =>
      rw [ih (resolverStep expected st (FstHierarchyEntry.Scope name)) h1 h]
      simp [resolverStep]
    | UpScope =>
      rw [ih (resolverStep expected st FstHierarchyEntry.UpScope) h1 h]
      simp [resolverStep]
    | AttributeEnd =>
      rw [ih (resolverStep expected st FstHierarchyEntry.AttributeEnd) h1 h]
      simp [resolverStep]
    | PathName name pid =>
      rw [ih (resolverStep expected st (FstHierarchyEntry.PathName name pid)) h1 h]
      simp [resolverStep]
    | SourceStem =>
      rw [ih (resolverStep expected st FstHierarchyEntry.SourceStem) h1 h]
      simp [resolverStep]
    | Comment s =>
      rw [ih (resolverStep expected st (FstHierarchyEntry.Comment s)) h1 h]
      simp [resolverStep]
    | EnumTable =>
      rw [ih (resolverStep expected st FstHierarchyEntry.EnumTable) h1 h]
      simp [resolverStep]
    | EnumTableRef =>
      rw [ih (resolverStep expected st FstHierarchyEntry.EnumTableRef) h1 h]
      simp [resolverStep]

/-! ## Resolver claims: dedup and names (C1) -/

/-- C1: for every requested name set and hierarchy, the resolved
metadata has no duplicate handles, every entry's name is a member of
the requested set, and a handle is present exactly when some variable
declaration carries that handle under a requested name — so each such
distinct handle contributes exactly one entry, whether the name was
requested multiple times or several declarations alias the handle. -/
theorem C1_resolver_dedup (expected : List String)
    (entries : List FstHierarchyEntry) :
    (collect_signals expected entries).handle.Nodup ∧
    (∀ n ∈ (collect_signals expected entries).names, n ∈ expected) ∧
    (∀ h, h ∈ (collect_signals expected entries).handle ↔
      ∃ n, FstHierarchyEntry.Var n h ∈ entries ∧ n ∈ expected) := by
  have hpool0 : ∀ h, h ∈ ResolverState.init.dedup_pool
      ↔ h ∈ ResolverState.init.metadata.handle := by
    intro h
    simp [ResolverState.init, SignalMetadata.default]
  have hinv := resolverRun_inv expected entries ResolverState.init hpool0
    (by simp [ResolverState.init, SignalMetadata.default])
    (by intro n hn; simp [ResolverState.init, SignalMetadata.default] at hn)
  refine ⟨hinv.2.1, hinv.2.2, ?_⟩
  intro h
  have hmem := resolverRun_handle_mem expected entries ResolverState.init
    hpool0 h
  have hbase : h ∉ ResolverState.init.metadata.handle := by
    simp [ResolverState.init, SignalMetadata.default]
  rw [collect_signals, resolverRun]
  rw [hmem]
  simp [hbase]

/-- Witness for C1 at a concrete run: on the hierarchy
`[Scope "top", Var "clk" 7, Var "other" 8]` with request `["clk"]` the
handle list has no duplicates, the name `"clk"` found in the metadata
is indeed requested, and handle 7's presence yields a requested
declaration. -/
theorem C1_resolver_dedup_witness :
    (collect_signals ["clk"] [FstHierarchyEntry.Scope "top",
        FstHierarchyEntry.Var "clk" 7,
        FstHierarchyEntry.Var "other" 8]).handle.Nodup ∧
    ("clk" ∈ (["clk"] : List String)) ∧
    (∃ n, FstHierarchyEntry.Var n 7 ∈ [FstHierarchyEntry.Scope "top",
        FstHierarchyEntry.Var "clk" 7, FstHierarchyEntry.Var "other" 8]
      ∧ n ∈ (["clk"] : List String)) :=
  ⟨(C1_resolver_dedup ["clk"] [FstHierarchyEntry.Scope "top",
      FstHierarchyEntry.Var "clk" 7, FstHierarchyEntry.Var "other" 8]).1,
   (C1_resolver_dedup ["clk"] [FstHierarchyEntry.Scope "top",
      FstHierarchyEntry.Var "clk" 7, FstHierarchyEntry.Var "other" 8]).2.1
     "clk" (by decide),
   ((C1_resolver_dedup ["clk"] [FstHierarchyEntry.Scope "top",
      FstHierarchyEntry.Var "clk" 7, FstHierarchyEntry.Var "other" 8]).2.2
     7).mp (by decide)⟩


/-! ## Scope-path balance (C4, C5) -/

theorem upCount_cons_up (l : List FstHierarchyEntry) :
    upCount (FstHierarchyEntry.UpScope :: l) = upCount l + 1 := by
  simp [upCount, List.countP_cons]

theorem upCount_cons_of_ne (e : FstHierarchyEntry)
    (l : List FstHierarchyEntry) (h : e ≠ FstHierarchyEntry.UpScope) :
    upCount (e :: l) = upCount l := by
  cases e
  case UpScope => exact absurd rfl h
  all_goals simp [upCount, List.countP_cons]

theorem scopeCount_cons_scope (n : String) (l : List FstHierarchyEntry) :
    scopeCount (FstHierarchyEntry.Scope n :: l) = scopeCount l + 1 := by
  simp [scopeCount, List.countP_cons]

theorem scopeCount_cons_of_ne (e : FstHierarchyEntry)
    (l : List FstHierarchyEntry)
    (h : ∀ n, e ≠ FstHierarchyEntry.Scope n) :
    scopeCount (e :: l) = scopeCount l := by
  cases e
  case Scope n => exact absurd rfl (h n)
  all_goals simp [scopeCount, List.countP_cons]

theorem resolver_path_length (expected : List String) :
    ∀ (entries : List FstHierarchyEntry) (st : ResolverState),
      (∀ p ∈ entries.inits,
        upCount p ≤ scopeCount p + st.module_path.length) →
      ((entries.foldl (resolverStep expected) st).module_path).length
          + upCount entries
        = st.module_path.length + scopeCount entries := by
  intro entries
  induction entries with
  | nil =>
    intro st h
    simp [upCount, scopeCount]
  | cons e rest ih =>
    intro st h
    have hcons : ∀ p ∈ rest.inits, (e :: p) ∈ (e :: rest).inits := by
      intro p hp
      rw [List.mem_inits] at hp ⊢
      obtain ⟨tail, ht⟩ := hp
      exact ⟨tail, by rw [List.cons_append, ht]⟩
    rw [List.foldl_cons]
    cases e with
    | Scope name =>
      have hlen : (resolverStep expected st
            (FstHierarchyEntry.Scope name)).module_path.length
          = st.module_path.length + 1 := by
        simp [resolverStep]
      have hrest : ∀ p ∈ rest.inits, upCount p ≤ scopeCount p
          + (resolverStep expected st
              (FstHierarchyEntry.Scope name)).module_path.length := by
        intro p hp
        have hh := h _ (hcons p hp)
        rw [upCount_cons_of_ne _ _ (fun hc => FstHierarchyEntry.noConfusion hc),
          scopeCount_cons_scope] at hh
        rw [hlen]
        omega
      have hfin := ih _ hrest
      rw [hlen] at hfin
      rw [upCount_cons_of_ne _ _ (fun hc => FstHierarchyEntry.noConfusion hc),
        scopeCount_cons_scope]
      omega
    | UpScope =>
      have hone : 1 ≤ st.module_path.length := by
        have h1 := h [FstHierarchyEntry.UpScope]
          (by rw [List.mem_inits]; exact ⟨rest, rfl⟩)
        rw [upCount_cons_up, scopeCount_cons_of_ne _ _
          (fun n hc => FstHierarchyEntry.noConfusion hc)] at h1
        simp [upCount, scopeCount] at h1
        omega
      have hlen : (resolverStep expected st
            FstHierarchyEntry.UpScope).module_path.length
          = st.module_path.length - 1 := by
        simp [resolverStep]
      have hrest : ∀ p ∈ rest.inits, upCount p ≤ scopeCount p
          + (resolverStep expected st
              FstHierarchyEntry.UpScope).module_path.length := by
        intro p hp
        have hh := h _ (hcons p hp)
        rw [upCount_cons_up, scopeCount_cons_of_ne _ _
          (fun n hc => FstHierarchyEntry.noConfusion hc)] at hh
        rw [hlen]
        omega
      have hfin := ih _ hrest
      rw [hlen] at hfin
      rw [upCount_cons_up, scopeCount_cons_of_ne _ _
        (fun n hc => FstHierarchyEntry.noConfusion hc)]
      omega
    | Var name handle =>
      have hlen : (resolverStep expected st
            (FstHierarchyEntry.Var name handle)).module_path.length
          = st.module_path.length := by
        dsimp only [resolverStep]
        split <;> rfl
      have hrest : ∀ p ∈ rest.inits, upCount p ≤ scopeCount p
          + (resolverStep expected st
              (FstHierarchyEntry.Var name handle)).module_path.length := by
        intro p hp
        have hh := h _ (hcons p hp)
        rw [upCount_cons_of_ne _ _ (fun hc => FstHierarchyEntry.noConfusion hc),
          scopeCount_cons_of_ne _ _
            (fun n hc => FstHierarchyEntry.noConfusion hc)] at hh
        rw [hlen]
        omega
      have hfin := ih _ hrest
      rw [hlen] at hfin
      rw [upCount_cons_of_ne _ _ (fun hc => FstHierarchyEntry.noConfusion hc),
        scopeCount_cons_of_ne _ _
          (fun n hc => FstHierarchyEntry.noConfusion hc)]
      omega
    | AttributeEnd =>
      have hrest : ∀ p ∈ rest.inits, upCount p ≤ scopeCount p
          + (resolverStep expected st
              FstHierarchyEntry.AttributeEnd).module_path.length := by
        intro p hp
        have hh := h _ (hcons p hp)
        rw [upCount_cons_of_ne _ _ (fun hc => FstHierarchyEntry.noConfusion hc),
          scopeCount_cons_of_ne _ _
            (fun n hc => FstHierarchyEntry.noConfusion hc)] at hh
        exact hh
      have hfin := ih _ hrest
      rw [upCount_cons_of_ne _ _ (fun hc => FstHierarchyEntry.noConfusion hc),
        scopeCount_cons_of_ne _ _
          (fun n hc => FstHierarchyEntry.noConfusion hc)]
      exact hfin
    | PathName name pid =>
      have hrest : ∀ p ∈ rest.inits, upCount p ≤ scopeCount p
          + (resolverStep expected st
              (FstHierarchyEntry.PathName name pid)).module_path.length := by
        intro p hp
        have hh := h _ (hcons p hp)
        rw [upCount_cons_of_ne _ _ (fun hc => FstHierarchyEntry.noConfusion hc),
          scopeCount_cons_of_ne _ _
            (fun n hc => FstHierarchyEntry.noConfusion hc)] at hh
        exact hh
      have hfin := ih _ hrest
      rw [upCount_cons_of_ne _ _ (fun hc => FstHierarchyEntry.noConfusion hc),
        scopeCount_cons_of_ne _ _
          (fun n hc => FstHierarchyEntry.noConfusion hc)]
      exact hfin
    | SourceStem =>
      have hrest : ∀ p ∈ rest.inits, upCount p ≤ scopeCount p
          + (resolverStep expected st
              FstHierarchyEntry.SourceStem).module_path.length := by
        intro p hp
        have hh := h _ (hcons p hp)
        rw [upCount_cons_of_ne _ _ (fun hc => FstHierarchyEntry.noConfusion hc),
          scopeCount_cons_of_ne _ _
            (fun n hc => FstHierarchyEntry.noConfusion hc)] at hh
        exact hh
      have hfin := ih _ hrest
      rw [upCount_cons_of_ne _ _ (fun hc => FstHierarchyEntry.noConfusion hc),
        scopeCount_cons_of_ne _ _
          (fun n hc => FstHierarchyEntry.noConfusion hc)]
      exact hfin
    | Comment s =>
      have hrest : ∀ p ∈ rest.inits, upCount p ≤ scopeCount p
          + (resolverStep expected st
              (FstHierarchyEntry.Comment s)).module_path.length := by
        intro p hp
        have hh := h _ (hcons p hp)
        rw [upCount_cons_of_ne _ _ (fun hc => FstHierarchyEntry.noConfusion hc),
          scopeCount_cons_of_ne _ _
            (fun n hc => FstHierarchyEntry.noConfusion hc)] at hh
        exact hh
      have hfin := ih _ hrest
      rw [upCount_cons_of_ne _ _ (fun hc => FstHierarchyEntry.noConfusion hc),
        scopeCount_cons_of_ne _ _
          (fun n hc => FstHierarchyEntry.noConfusion hc)]
      exact hfin
    | EnumTable =>
      have hrest : ∀ p ∈ rest.inits, upCount p ≤ scopeCount p
          + (resolverStep expected st
              FstHierarchyEntry.EnumTable).module_path.length := by
        intro p hp
        have hh := h _ (hcons p hp)
        rw [upCount_cons_of_ne _ _ (fun hc => FstHierarchyEntry.noConfusion hc),
          scopeCount_cons_of_ne _ _
            (fun n hc => FstHierarchyEntry.noConfusion hc)] at hh
        exact hh
      have hfin := ih _ hrest
      rw [upCount_cons_of_ne _ _ (fun hc => FstHierarchyEntry.noConfusion hc),
        scopeCount_cons_of_ne _ _
          (fun n hc => FstHierarchyEntry.noConfusion hc)]
      exact hfin
    | EnumTableRef =>
      have hrest : ∀ p ∈ rest.inits, upCount p ≤ scopeCount p
          + (resolverStep expected st
              FstHierarchyEntry.EnumTableRef).module_path.length := by
        intro p hp
        have hh := h _ (hcons p hp)
        rw [upCount_cons_of_ne _ _ (fun hc => FstHierarchyEntry.noConfusion hc),
          scopeCount_cons_of_ne _ _
            (fun n hc => FstHierarchyEntry.noConfusion hc)] at hh
        exact hh
      have hfin := ih _ hrest
      rw [upCount_cons_of_ne _ _ (fun hc => FstHierarchyEntry.noConfusion hc),
        scopeCount_cons_of_ne _ _
          (fun n hc => FstHierarchyEntry.noConfusion hc)]
      exact hfin

/-- C4: after a full hierarchy traversal of legally-nested input
(scope-enter and scope-exit entries strictly balanced), the live scope
path maintained by `collect_signals` is empty, whatever the nesting
depth and wherever the other entry kinds sit in the stream. -/
theorem C4_scope_path_balance (expected : List String)
    (entries : List FstHierarchyEntry) (hb : BalancedEntries entries) :
    (resolverRun expected entries).module_path = [] := by
  have hpre : ∀ p ∈ entries.inits,
      upCount p ≤ scopeCount p + ResolverState.init.module_path.length := by
    intro p hp
    have := hb.1 p hp
    simpa [ResolverState.init] using this
  have h := resolver_path_length expected entries ResolverState.init hpre
  have hlen : ((resolverRun expected entries).module_path).length = 0 := by
    have h2 := hb.2
    have h3 : ResolverState.init.module_path.length = 0 := rfl
    rw [resolverRun]
    omega
  exact List.length_eq_zero.mp hlen

/-- Witness for C4 at a concrete balanced hierarchy with nesting depth
two and interleaved non-scope entries. -/
theorem C4_scope_path_balance_witness :
    BalancedEntries [FstHierarchyEntry.Scope "top",
      FstHierarchyEntry.Comment "c", FstHierarchyEntry.Scope "sub",
      FstHierarchyEntry.Var "clk" 7, FstHierarchyEntry.UpScope,
      FstHierarchyEntry.UpScope] ∧
    (resolverRun ["clk"] [FstHierarchyEntry.Scope "top",
      FstHierarchyEntry.Comment "c", FstHierarchyEntry.Scope "sub",
      FstHierarchyEntry.Var "clk" 7, FstHierarchyEntry.UpScope,
      FstHierarchyEntry.UpScope]).module_path = [] :=
  ⟨by decide,
   C4_scope_path_balance ["clk"] [FstHierarchyEntry.Scope "top",
     FstHierarchyEntry.Comment "c", FstHierarchyEntry.Scope "sub",
     FstHierarchyEntry.Var "clk" 7, FstHierarchyEntry.UpScope,
     FstHierarchyEntry.UpScope] (by decide)⟩

/-- C5 fails as stated: on the hierarchy `[UpScope, Var "clk" 7]` the
scope-exit entry arrives with the live path already empty, yet
`collect_signals` does not signal any error — it continues the
traversal and still collects the subsequent declaration — whereas the
resolver the spec describes (`collect_signals_spec`, which errors on a
pop of the empty path) stops with the malformed-hierarchy error. -/
theorem C5_counterexample :
    collect_signals_spec ["clk"] [FstHierarchyEntry.UpScope,
        FstHierarchyEntry.Var "clk" 7]
      = Except.error "malformed hierarchy" ∧
    collect_signals ["clk"] [FstHierarchyEntry.UpScope,
        FstHierarchyEntry.Var "clk" 7]
      = ⟨[[]], ["clk"], [7]⟩ := by
  constructor
  · rfl
  · decide

/-- C5 (amended): processing a scope-exit entry when the live scope
path is already empty does not fail: the pop is a no-op on the empty
path and the traversal continues exactly as if the entry were absent. -/
theorem C5_upscope_on_empty_is_noop (expected : List String)
    (rest : List FstHierarchyEntry) :
    collect_signals expected (FstHierarchyEntry.UpScope :: rest)
      = collect_signals expected rest := rfl

/-! ## Parallel-vector invariant (C9) and its consequences -/

theorem recResolverStep_proj (expected : List String)
    (rst : RecResolverState) (e : FstHierarchyEntry) :
    resolverStep expected
        ⟨⟨rst.records.map SignalRecord.module_path,
          rst.records.map SignalRecord.name,
          rst.records.map SignalRecord.handle⟩,
          rst.module_path, rst.dedup_pool⟩ e
      = ⟨⟨(recResolverStep expected rst e).records.map SignalRecord.module_path,
          (recResolverStep expected rst e).records.map SignalRecord.name,
          (recResolverStep expected rst e).records.map SignalRecord.handle⟩,
          (recResolverStep expected rst e).module_path,
          (recResolverStep expected rst e).dedup_pool⟩ := by
  cases e with
  | Var name handle =>
    dsimp only [resolverStep, recResolverStep]
    by_cases hc : name ∈ expected ∧ handle ∉ rst.dedup_pool
    · rw [if_pos hc, if_pos hc]
      simp [SignalMetadata.push]
    · rw [if_neg hc, if_neg hc]
  | Scope name => rfl
  | UpScope => rfl
  | AttributeEnd => rfl
  | PathName name pid => rfl
  | SourceStem => rfl
  | Comment s => rfl
  | EnumTable => rfl
  | EnumTableRef => rfl

theorem resolverRun_proj (expected : List String)
    (entries : List FstHierarchyEntry) :
    ∀ rst : RecResolverState,
      entries.foldl (resolverStep expected)
          ⟨⟨rst.records.map SignalRecord.module_path,
            rst.records.map SignalRecord.name,
            rst.records.map SignalRecord.handle⟩,
            rst.module_path, rst.dedup_pool⟩
        = ⟨⟨(entries.foldl (recResolverStep expected) rst).records.map
              SignalRecord.module_path,
            (entries.foldl (recResolverStep expected) rst).records.map
              SignalRecord.name,
            (entries.foldl (recResolverStep expected) rst).records.map
              SignalRecord.handle⟩,
            (entries.foldl (recResolverStep expected) rst).module_path,
            (entries.foldl (recResolverStep expected) rst).dedup_pool⟩ := by
  induction entries with
  | nil =>
    intro rst
    rfl
  | cons e rest ih =>
    intro rst
    rw [List.foldl_cons, List.foldl_cons, recResolverStep_proj]
    exact ih (recResolverStep expected rst e)

theorem collect_signals_eq_records (expected : List String)
    (entries : List FstHierarchyEntry) :
    collect_signals expected entries
      = ⟨(collectRecords expected entries).map SignalRecord.module_path,
          (collectRecords expected entries).map SignalRecord.name,
          (collectRecords expected entries).map SignalRecord.handle⟩ := by
  have h := resolverRun_proj expected entries ⟨[], [], []⟩
  rw [collect_signals, resolverRun, ResolverState.init]
  rw [collectRecords]
  have hinit : (⟨SignalMetadata.default, [], []⟩ : ResolverState)
      = ⟨⟨([] : List SignalRecord).map SignalRecord.module_path,
          ([] : List SignalRecord).map SignalRecord.name,
          ([] : List SignalRecord).map SignalRecord.handle⟩, [], []⟩ := rfl
  rw [hinit, h]

theorem collectRecords_from_var (expected : List String)
    (entries : List FstHierarchyEntry) :
    ∀ rst : RecResolverState,
      ∀ r ∈ (entries.foldl (recResolverStep expected) rst).records,
        r ∈ rst.records ∨
          (FstHierarchyEntry.Var r.name r.handle ∈ entries
            ∧ r.name ∈ expected) := by
  induction entries with
  | nil =>
    intro rst r hr
    exact Or.inl hr
  | cons e rest ih =>
    intro rst r hr
    rw [List.foldl_cons] at hr
    rcases ih _ r hr with hmem | ⟨hv, hn⟩
    · cases e with
      | Var name handle =>
        dsimp only [recResolverStep] at hmem
        by_cases hc : name ∈ expected ∧ handle ∉ rst.dedup_pool
        · rw [if_pos hc] at hmem
          rcases List.mem_append.mp hmem with h1 | h1
          · exact Or.inl h1
          · simp only [List.mem_singleton] at h1
            subst h1
            exact Or.inr ⟨by simp, hc.1⟩
        · rw [if_neg hc] at hmem
          exact Or.inl hmem
      | Scope name => exact Or.inl hmem
      | UpScope => exact Or.inl hmem
      | AttributeEnd => exact Or.inl hmem
      | PathName name pid => exact Or.inl hmem
      | SourceStem => exact Or.inl hmem
      | Comment s => exact Or.inl hmem
      | EnumTable => exact Or.inl hmem
      | EnumTableRef => exact Or.inl hmem
    · exact Or.inr ⟨List.mem_cons_of_mem _ hv, hn⟩

/-- C9: in every `SignalMetadata` produced by `collect_signals`, the
three parallel vectors have equal length, and at every common index the
three fields are the three components of one record of the reference
resolver — a record created all at once from a single variable
declaration that occurs in the traversed hierarchy.  This is the
invariant `main`'s collector relies on to look a signal's name up by
the position of its handle. -/
theorem C9_metadata_parallel (expected : List String)
    (entries : List FstHierarchyEntry) :
    (collect_signals expected entries).module_paths.length
      = (collect_signals expected entries).names.length ∧
    (collect_signals expected entries).names.length
      = (collect_signals expected entries).handle.length ∧
    (∀ i : Nat, i < (collect_signals expected entries).handle.length →
      ∃ r : SignalRecord,
        (collectRecords expected entries)[i]? = some r ∧
        (collect_signals expected entries).module_paths[i]?
          = some r.module_path ∧
        (collect_signals expected entries).names[i]? = some r.name ∧
        (collect_signals expected entries).handle[i]? = some r.handle ∧
        FstHierarchyEntry.Var r.name r.handle ∈ entries) := by
  rw [collect_signals_eq_records]
  refine ⟨by simp, by simp, ?_⟩
  intro i hi
  simp only [List.length_map] at hi
  refine ⟨(collectRecords expected entries)[i], ?_, ?_, ?_, ?_, ?_⟩
  · rw [List.getElem?_eq_getElem hi]
  · simp [List.getElem?_map, List.getElem?_eq_getElem hi]
  · simp [List.getElem?_map, List.getElem?_eq_getElem hi]
  · simp [List.getElem?_map, List.getElem?_eq_getElem hi]
  · have hmem : (collectRecords expected entries)[i]
        ∈ (collectRecords expected entries) := List.getElem_mem hi
    unfold collectRecords at hmem
    rcases collectRecords_from_var expected entries ⟨[], [], []⟩ _ hmem
      with h0 | ⟨hv, _⟩
    · simp at h0
    · exact hv

/-- Witness for C9 at a concrete run: index 0 of the metadata resolved
for `["clk"]` over `[Scope "top", Var "clk" 7]` carries the three
fields of one record, declared by `Var "clk" 7`. -/
theorem C9_metadata_parallel_witness :
    ∃ r : SignalRecord,
      (collectRecords ["clk"] [FstHierarchyEntry.Scope "top",
          FstHierarchyEntry.Var "clk" 7])[0]? = some r ∧
      (collect_signals ["clk"] [FstHierarchyEntry.Scope "top",
          FstHierarchyEntry.Var "clk" 7]).module_paths[0]?
        = some r.module_path ∧
      (collect_signals ["clk"] [FstHierarchyEntry.Scope "top",
          FstHierarchyEntry.Var "clk" 7]).names[0]? = some r.name ∧
      (collect_signals ["clk"] [FstHierarchyEntry.Scope "top",
          FstHierarchyEntry.Var "clk" 7]).handle[0]? = some r.handle ∧
      FstHierarchyEntry.Var r.name r.handle ∈ [FstHierarchyEntry.Scope "top",
          FstHierarchyEntry.Var "clk" 7] :=
  (C9_metadata_parallel ["clk"] [FstHierarchyEntry.Scope "top",
    FstHierarchyEntry.Var "clk" 7]).2.2 0 (by decide)

/-! ## Value-change collector (C2, C8) and run outcome (C6) -/

theorem findIdx?_none_iff_not_mem (l : List Nat) (h : Nat) :
    l.findIdx? (fun item => item = h) = none ↔ h ∉ l := by
  rw [List.findIdx?_eq_none_iff]
  constructor
  · intro hall hmem
    have := hall h hmem
    simp at this
  · intro hn x hx
    simp only [decide_eq_false_iff_not]
    intro he
    subst he
    exact hn hx

/-- C2 fails as stated: no `Sample` is appended to any `Profile` — the
collector callback in `main` only emits a log line — and the module
path is not part of what is emitted.  Concretely: resolving `["clk"]`
over `Scope "top" { Var "clk" (handle 7) }` yields the metadata entry
with module path `["top"]`, and the matching event at time 0 with value
text `"1"` produces exactly the log record `(0, "clk", "1")`, whose
label texts do not contain the joined module path `"top"` (the join of
the one-element path is `"top"` for every separator). -/
theorem C2_counterexample :
    collect_signals ["clk"]
        [FstHierarchyEntry.Scope "top", FstHierarchyEntry.Var "clk" 7,
          FstHierarchyEntry.UpScope]
      = ⟨[["top"]], ["clk"], [7]⟩ ∧
    processEvent ⟨[["top"]], ["clk"], [7]⟩ 0 7 (FstSignalValue.Str "1")
      = some ⟨0, "clk", "1"⟩ ∧
    String.intercalate "." ["top"] = "top" ∧
    "top" ∉ LogRecord.labelTexts ⟨0, "clk", "1"⟩ := by
  refine ⟨by decide, by decide, by decide, by decide⟩

/-- C2 (amended): for every value-change event of the filtered replay
whose handle occurs in the resolved metadata, exactly one log record is
emitted, carrying the event's timestamp, the signal's name (the one
stored at the position of the first occurrence of the handle) and the
rendered raw value text — and nothing else: no `Sample` is built and
the module path is not included.  An event whose handle is not in the
metadata emits nothing. -/
theorem C2_event_log_contract (m : SignalMetadata) (t h : Nat)
    (v : FstSignalValue) :
    (h ∈ m.handle →
      ∃ i : Nat, m.handle.findIdx? (fun item => item = h) = some i ∧
        processEvent m t h v
          = some ⟨t, m.names.getD i "", renderValue v⟩) ∧
    (h ∉ m.handle → processEvent m t h v = none) := by
  constructor
  · intro hmem
    cases hidx : m.handle.findIdx? (fun item => item = h) with
    | none =>
      rw [findIdx?_none_iff_not_mem] at hidx
      exact absurd hmem hidx
    | some i =>
      refine ⟨i, rfl, ?_⟩
      unfold processEvent
      rw [hidx]
  · intro hmem
    unfold processEvent
    rw [(findIdx?_none_iff_not_mem _ _).mpr hmem]

/-- Witness for C2 (amended) at a concrete event: handle 7 is in the
metadata, and the event at time 0 with value `"1"` emits the one
record with the name stored beside that handle. -/
theorem C2_event_log_contract_witness :
    ∃ i : Nat,
      (SignalMetadata.handle ⟨[["top"]], ["clk"], [7]⟩).findIdx?
          (fun item => item = 7) = some i ∧
      processEvent ⟨[["top"]], ["clk"], [7]⟩ 0 7 (FstSignalValue.Str "1")
        = some ⟨0, (SignalMetadata.names ⟨[["top"]], ["clk"], [7]⟩).getD i "",
            renderValue (FstSignalValue.Str "1")⟩ :=
  (C2_event_log_contract ⟨[["top"]], ["clk"], [7]⟩ 0 7
    (FstSignalValue.Str "1")).1 (by decide)

/-- C6 fails as stated: the program writes no file at all.  On a
concrete successful run (`--fst foo.fst --signals clk` over a decodable
input) `main` returns `Ok(())` — exit status zero — but its set of
written files is empty; in particular nothing is written to
`foo.pprof.gz`, and `CliArgs` has no destination argument to begin
with. -/
theorem C6_counterexample :
    (mainRun ⟨"foo.fst", none, "clk"⟩
        ⟨[FstHierarchyEntry.Scope "top", FstHierarchyEntry.Var "clk" 7],
          [⟨0, 7, FstSignalValue.Str "1"⟩]⟩).exitOk = true ∧
    (mainRun ⟨"foo.fst", none, "clk"⟩
        ⟨[FstHierarchyEntry.Scope "top", FstHierarchyEntry.Var "clk" 7],
          [⟨0, 7, FstSignalValue.Str "1"⟩]⟩).writtenFiles = [] ∧
    "foo.pprof.gz" ∉ (mainRun ⟨"foo.fst", none, "clk"⟩
        ⟨[FstHierarchyEntry.Scope "top", FstHierarchyEntry.Var "clk" 7],
          [⟨0, 7, FstSignalValue.Str "1"⟩]⟩).writtenFiles :=
  ⟨rfl, rfl, List.not_mem_nil _⟩

/-- C6 (amended): on a successful run the program exits with status
zero, and it writes no file: there is no profile encode/persist step
and no destination path (defaulted or otherwise) anywhere in the
program. -/
theorem C6_exit_zero_no_output (args : CliArgs) (input : FstInput) :
    (mainRun args input).exitOk = true ∧
    (mainRun args input).writtenFiles = [] :=
  ⟨rfl, rfl⟩

theorem processEvent_eq (m : SignalMetadata) (t h : Nat)
    (v : FstSignalValue) :
    processEvent m t h v
      = match m.handle.findIdx? (fun item => item = h) with
        | some i => some ⟨t, m.names.getD i "", renderValue v⟩
        | none => none := rfl

theorem runLogs_signal_mem (m : SignalMetadata)
    (hlen : m.names.length = m.handle.length)
    (events : List FstEvent) (r : LogRecord) (hr : r ∈ runLogs m events) :
    r.signal ∈ m.names := by
  unfold runLogs at hr
  obtain ⟨e, he, hpe⟩ := List.mem_filterMap.mp hr
  rw [processEvent_eq] at hpe
  cases hidx : m.handle.findIdx? (fun item => item = e.handle) with
  | none =>
    rw [hidx] at hpe
    simp at hpe
  | some i =>
    rw [hidx] at hpe
    simp only [Option.some.injEq] at hpe
    have hi : i < m.handle.length :=
      (List.findIdx?_eq_some_iff_findIdx_eq.mp hidx).1
    have hi2 : i < m.names.length := by omega
    have hsig : r.signal = m.names.getD i "" := by
      rw [← hpe]
    rw [hsig, List.getD_eq_getElem?_getD, List.getElem?_eq_getElem hi2]
    simp

theorem collect_names_from_var (expected : List String)
    (entries : List FstHierarchyEntry) (n : String)
    (hn : n ∈ (collect_signals expected entries).names) :
    ∃ h, FstHierarchyEntry.Var n h ∈ entries := by
  rw [collect_signals_eq_records] at hn
  obtain ⟨r, hr, hrn⟩ := List.mem_map.mp hn
  unfold collectRecords at hr
  rcases collectRecords_from_var expected entries ⟨[], [], []⟩ r hr
    with h0 | ⟨hv, _⟩
  · simp at h0
  · refine ⟨r.handle, ?_⟩
    rw [hrn] at hv
    exact hv

/-- C8: a requested name that never appears as a variable declaration
in the hierarchy does not make the run fail: `main` still returns
`Ok(())`, that name contributes no metadata entry, and no emitted log
record carries it — the traversal and the replay complete normally.
(Stated for an arbitrary name `n`, which covers in particular every
requested name, i.e. every member of `args.signals.splitOn ","`.) -/
theorem C8_absent_name (args : CliArgs) (input : FstInput) (n : String)
    (habs : ∀ e ∈ input.hierarchy, varNameOf e ≠ some n) :
    (mainRun args input).exitOk = true ∧
    n ∉ (collect_signals (args.signals.splitOn ",") input.hierarchy).names ∧
    (∀ r ∈ (mainRun args input).logs, r.signal ≠ n) := by
  have hnotin : n ∉ (collect_signals (args.signals.splitOn ",")
      input.hierarchy).names := by
    intro hmem
    obtain ⟨h, hv⟩ := collect_names_from_var _ _ _ hmem
    exact habs _ hv rfl
  refine ⟨rfl, hnotin, ?_⟩
  intro r hr
  have hlen : (collect_signals (args.signals.splitOn ",")
        input.hierarchy).names.length
      = (collect_signals (args.signals.splitOn ",")
        input.hierarchy).handle.length := by
    rw [collect_signals_eq_records]
    simp
  have hr2 : r ∈ runLogs (collect_signals (args.signals.splitOn ",")
      input.hierarchy) input.events := hr
  have hsig := runLogs_signal_mem _ hlen _ _ hr2
  intro heq
  rw [heq] at hsig
  exact hnotin hsig

/-- Witness for C8 at a concrete run: requesting `"ghost"` (absent from
the hierarchy) alongside `"clk"` still exits with status zero and
produces no metadata entry named `"ghost"`. -/
theorem C8_absent_name_witness :
    (mainRun ⟨"a.fst", none, "clk,ghost"⟩
        ⟨[FstHierarchyEntry.Scope "top", FstHierarchyEntry.Var "clk" 7],
          [⟨0, 7, FstSignalValue.Str "1"⟩]⟩).exitOk = true ∧
    "ghost" ∉ (collect_signals (("clk,ghost" : String).splitOn ",")
        [FstHierarchyEntry.Scope "top",
          FstHierarchyEntry.Var "clk" 7]).names :=
  ⟨(C8_absent_name ⟨"a.fst", none, "clk,ghost"⟩
      ⟨[FstHierarchyEntry.Scope "top", FstHierarchyEntry.Var "clk" 7],
        [⟨0, 7, FstSignalValue.Str "1"⟩]⟩ "ghost" (by decide)).1,
   (C8_absent_name ⟨"a.fst", none, "clk,ghost"⟩
      ⟨[FstHierarchyEntry.Scope "top", FstHierarchyEntry.Var "clk" 7],
        [⟨0, 7, FstSignalValue.Str "1"⟩]⟩ "ghost" (by decide)).2.1⟩
